import Mathlib

/-!
Shallow embedding of the `portlist` package core (`portlist/portlist.go`):
the `Port` record with its `lessThan` comparator, `sameInodes` change
detection, `sortAndDedup` normalization and the `String` rendering method,
together with proofs of the specification's claims about them.

Embedding conventions:
* Go strings are embedded as Lean `String`; Go's byte-wise lexicographic
  `<` on (UTF-8) strings coincides with `String`'s codepoint-lexicographic
  order on valid UTF-8.
* The `uint16` port only ever gets compared (never arithmetic), so it is
  embedded as `Nat`.
* Go's `sort.Slice` is an arbitrary (unstable) comparison sort.  Because
  the non-strict order induced by `lessThan` is antisymmetric
  (`lessThan_connex` below: incomparable ports are equal), a sorted
  permutation of a list is unique, so any correct sort computes the same
  list; we embed the sort as `List.insertionSort`
  (`insertionSort_canonical` makes the justification precise).
-/

namespace Portlist

/-- Go `type Port struct { Proto string; Port uint16; Process string; inode string }`.
Fields are lower-cased (`Proto → proto`, `Port → port`) to avoid clashing
with the type name. -/
@[ext]
structure Port where
  proto : String
  port : Nat
  process : String
  inode : String
deriving DecidableEq

/-- Go's `<` on strings: lexicographic comparison of the character
sequences (on valid UTF-8, byte-wise comparison of Go strings coincides
with codepoint-wise comparison).  Defined by structural recursion so that
it evaluates by kernel reduction. -/
def strLtb : List Char → List Char → Bool
  | [], [] => false
  | [], _ :: _ => true
  | _ :: _, [] => false
  | a :: as, b :: bs => if a < b then true else if b < a then false else strLtb as bs

/-- Go string comparison `s < t`, as a `Bool` on `String`. -/
def sLt (s t : String) : Bool := strLtb s.data t.data

/-- Go `func (a *Port) lessThan(b *Port) bool` — the four-level tie-break
chain on (Port, Proto, inode, Process). -/
def lessThan (a b : Port) : Bool :=
  if a.port < b.port then true
  else if a.port > b.port then false
  else if sLt a.proto b.proto then true
  else if sLt b.proto a.proto then false
  else if sLt a.inode b.inode then true
  else if sLt b.inode a.inode then false
  else if sLt a.process b.process then true
  else if sLt b.process a.process then false
  else false

/-- The full lexicographic sort key `(port, proto, inode, process)` of a
`Port`, valued in the lexicographic product order. -/
def toKey (p : Port) : Nat ×ₗ String ×ₗ String ×ₗ String :=
  toLex (p.port, toLex (p.proto, toLex (p.inode, p.process)))

/-- The non-strict order induced by `lessThan`; this is the order the Go
`sort.Slice` call sorts into. -/
def portLe (a b : Port) : Prop := lessThan b a = false

instance : DecidableRel portLe :=
  fun a b => inferInstanceAs (Decidable (lessThan b a = false))

/-- The Go composite literal `Port{Proto: p.Proto, Port: p.Port}` built in
the dedup loop of `sortAndDedup`: the `(Proto, Port)` dedup key of `p`, with
the remaining fields left at their zero values. -/
def protoPort (p : Port) : Port :=
  { proto := p.proto, port := p.port, process := "", inode := "" }

/-- The zero value `var last Port` that seeds the dedup loop. -/
def zeroPort : Port := { proto := "", port := 0, process := "", inode := "" }

/-- The dedup loop of Go `sortAndDedup`: walk the (already sorted) list,
skipping every element whose `(Proto, Port)` key `Port`-literal equals the
tracked `last` value, which starts at the zero `Port`. -/
def dedupGo : Port → List Port → List Port
  | _, [] => []
  | last, p :: rest =>
    if last = protoPort p then dedupGo last rest
    else p :: dedupGo (protoPort p) rest

/-- Go `func sortAndDedup(ps List) List`: sort by `lessThan` (via
`sort.Slice`, embedded as `insertionSort` into the induced non-strict
order, see the header comment), then drop duplicate `(Proto, Port)` keys.
The in-place slice reuse of the Go code has no observable effect. -/
def sortAndDedup (ps : List Port) : List Port :=
  dedupGo zeroPort (List.insertionSort portLe ps)

/-- The `(port, proto)` dedup key of a `Port`, valued in the lexicographic
product order (port major, protocol minor — the order the sort imposes on
keys). -/
def keyOf (p : Port) : Nat ×ₗ String := toLex (p.port, p.proto)

/-- Go `func (a List) sameInodes(b List) bool`: equal lengths and, at each
index, equal `Proto`, `Port` and `inode` (the `Process` field is not
compared). -/
def sameInodes (a b : List Port) : Bool :=
  if a.length = b.length then
    (a.zip b).all fun q =>
      q.1.proto == q.2.proto && q.1.port == q.2.port && q.1.inode == q.2.inode
  else false

/-- Forget the `process` field of an Observation (used to state what
`sameInodes` does and does not look at). -/
def stripProcess (p : Port) : Port := { p with process := "" }

/-- Go `fmt` padding: `%-Ns` — left-justify `s` in a field of at least `w`
runes (Go measures format widths in runes). -/
def goPadRight (w : Nat) (s : String) : String :=
  s ++ String.mk (List.replicate (w - s.length) ' ')

/-- Go `fmt` padding: `%Nd`-style right justification to at least `w`
runes. -/
def goPadLeft (w : Nat) (s : String) : String :=
  String.mk (List.replicate (w - s.length) ' ') ++ s

def hexDigit (n : Nat) : Char :=
  if n < 10 then Char.ofNat (48 + n) else Char.ofNat (97 + (n - 10))

def hex2 (n : Nat) : String :=
  String.mk [hexDigit (n / 16 % 16), hexDigit (n % 16)]

def hex4 (n : Nat) : String :=
  String.mk [hexDigit (n / 4096 % 16), hexDigit (n / 256 % 16),
    hexDigit (n / 16 % 16), hexDigit (n % 16)]

def hex8 (n : Nat) : String := hex4 (n / 65536) ++ hex4 (n % 65536)

/-- One character of Go's `%#v` rendering of a string (`strconv.Quote`
escaping): quote and backslash are backslash-escaped, printable ASCII is
kept, the named control escapes are used, and everything else is
hex-escaped.  (For printable non-ASCII runes Go would emit the rune
directly; this model conservatively escapes them — no claim touches
non-ASCII process names.) -/
def goQuoteChar (c : Char) : String :=
  if c = '"' then "\\\""
  else if c = '\\' then "\\\\"
  else if 32 ≤ c.toNat ∧ c.toNat < 127 then String.mk [c]
  else if c = Char.ofNat 7 then "\\a"
  else if c = Char.ofNat 8 then "\\b"
  else if c = Char.ofNat 12 then "\\f"
  else if c = '\n' then "\\n"
  else if c = Char.ofNat 13 then "\\r"
  else if c = '\t' then "\\t"
  else if c = Char.ofNat 11 then "\\v"
  else if c.toNat < 128 then "\\x" ++ hex2 c.toNat
  else if c.toNat < 65536 then "\\u" ++ hex4 c.toNat
  else "\\U" ++ hex8 c.toNat

def strConcat : List String → String
  | [] => ""
  | s :: rest => s ++ strConcat rest

/-- Go's `%#v` for a string: a double-quoted, escaped literal. -/
def goQuote (s : String) : String :=
  "\"" ++ strConcat (s.data.map goQuoteChar) ++ "\""

/-- One output line of Go `func (pl List) String()`, from the format
string `"%-3s %5d %-17s %#v\n"` applied to `(Proto, Port, inode, Process)`
— without the trailing newline. -/
def formatLine (v : Port) : String :=
  goPadRight 3 v.proto ++ " " ++ goPadLeft 5 (Nat.repr v.port) ++ " " ++
    goPadRight 17 v.inode ++ " " ++ goQuote v.process

/-- Go `strings.TrimRight(s, "\n")` on the character list. -/
def dropTrailingNL (l : List Char) : List Char :=
  (l.reverse.dropWhile (fun c => c = '\n')).reverse

/-- Go `strings.TrimRight(s, "\n")`. -/
def trimRightNewlines (s : String) : String := String.mk (dropTrailingNL s.data)

/-- Go `func (pl List) String()`: build up `line ++ "\n"` per Observation
in a `strings.Builder`, then trim the trailing newlines. -/
def render (pl : List Port) : String :=
  trimRightNewlines (pl.foldl (fun sb v => sb ++ (formatLine v ++ "\n")) "")

/-- Newline-separated lines, with no trailing newline. -/
def joinLines : List String → String
  | [] => ""
  | [l] => l
  | l :: l2 :: rest => l ++ "\n" ++ joinLines (l2 :: rest)

theorem strLtb_eq_true_iff :
    ∀ l₁ l₂ : List Char, strLtb l₁ l₂ = true ↔ List.Lex (· < ·) l₁ l₂ := by
  intro l₁
  induction l₁ with
  | nil =>
    intro l₂
    cases l₂ with
    | nil => exact iff_of_false (by simp [strLtb]) (List.Lex.not_nil_right _ _)
    | cons b bs => exact iff_of_true rfl List.Lex.nil
  | cons a as ih =>
    intro l₂
    cases l₂ with
    | nil => exact iff_of_false (by simp [strLtb]) (List.Lex.not_nil_right _ _)
    | cons b bs =>
      unfold strLtb
      split_ifs with h1 h2
      · exact iff_of_true rfl (List.Lex.rel h1)
      · refine iff_of_false (by simp) fun h => ?_
        cases h with
        | cons h' => exact lt_irrefl _ h2
        | rel h' => exact h1 h'
      · have he : a = b := le_antisymm (le_of_not_lt h2) (le_of_not_lt h1)
        subst he
        constructor
        · intro h
          exact List.Lex.cons ((ih bs).mp h)
        · intro h
          cases h with
          | cons h' => exact (ih bs).mpr h'
          | rel h' => exact absurd h' h1

/-- `sLt` agrees with the (Mathlib) lexicographic linear order on `String`. -/
theorem sLt_eq_true_iff (s t : String) : sLt s t = true ↔ s < t := by
  rw [String.lt_iff_toList_lt]
  exact strLtb_eq_true_iff s.data t.data

theorem lessThan_eq_true_iff (a b : Port) :
    lessThan a b = true ↔
      (a.port < b.port ∨ (a.port = b.port ∧
        (a.proto < b.proto ∨ (a.proto = b.proto ∧
          (a.inode < b.inode ∨ (a.inode = b.inode ∧ a.process < b.process)))))) := by
  unfold lessThan
  split_ifs with h1 h2 h3 h4 h5 h6 h7 h8
  · exact iff_of_true rfl (Or.inl h1)
  · refine iff_of_false (by simp) ?_
    rintro (h | ⟨h, -⟩) <;> omega
  · rw [sLt_eq_true_iff] at h3
    exact iff_of_true rfl (Or.inr ⟨by omega, Or.inl h3⟩)
  · rw [sLt_eq_true_iff] at h3 h4
    refine iff_of_false (by simp) ?_
    rintro (h | ⟨-, (h | ⟨he, -⟩)⟩)
    · exact h1 h
    · exact h3 h
    · exact lt_irrefl _ (he ▸ h4)
  · rw [sLt_eq_true_iff] at h3 h4 h5
    exact iff_of_true rfl
      (Or.inr ⟨by omega, Or.inr ⟨le_antisymm (not_lt.mp h4) (not_lt.mp h3), Or.inl h5⟩⟩)
  · rw [sLt_eq_true_iff] at h3 h4 h5 h6
    refine iff_of_false (by simp) ?_
    rintro (h | ⟨-, (h | ⟨-, (h | ⟨he, -⟩)⟩)⟩)
    · exact h1 h
    · exact h3 h
    · exact h5 h
    · exact lt_irrefl _ (he ▸ h6)
  · rw [sLt_eq_true_iff] at h3 h4 h5 h6 h7
    exact iff_of_true rfl
      (Or.inr ⟨by omega, Or.inr ⟨le_antisymm (not_lt.mp h4) (not_lt.mp h3),
        Or.inr ⟨le_antisymm (not_lt.mp h6) (not_lt.mp h5), h7⟩⟩⟩)
  · rw [sLt_eq_true_iff] at h3 h4 h5 h6 h7 h8
    refine iff_of_false (by simp) ?_
    rintro (h | ⟨-, (h | ⟨-, (h | ⟨-, h⟩)⟩)⟩)
    · exact h1 h
    · exact h3 h
    · exact h5 h
    · exact h7 h
  · rw [sLt_eq_true_iff] at h3 h4 h5 h6 h7 h8
    refine iff_of_false (by simp) ?_
    rintro (h | ⟨-, (h | ⟨-, (h | ⟨-, h⟩)⟩)⟩)
    · exact h1 h
    · exact h3 h
    · exact h5 h
    · exact h7 h

theorem lessThan_iff_toKey (a b : Port) : lessThan a b = true ↔ toKey a < toKey b := by
  rw [lessThan_eq_true_iff]
  simp only [toKey, Prod.Lex.lt_iff]

theorem lessThan_eq_false_iff (a b : Port) :
    lessThan a b = false ↔ ¬ toKey a < toKey b := by
  rw [← lessThan_iff_toKey]
  cases lessThan a b <;> simp

theorem portLe_iff (a b : Port) : portLe a b ↔ toKey a ≤ toKey b := by
  unfold portLe
  rw [lessThan_eq_false_iff, not_lt]

theorem toKey_inj {a b : Port} (h : toKey a = toKey b) : a = b := by
  simp only [toKey, toLex_inj, Prod.mk.injEq] at h
  obtain ⟨h1, h2, h3, h4⟩ := h
  cases a; cases b
  simp_all

theorem lessThan_self (a : Port) : lessThan a a = false :=
  (lessThan_eq_false_iff a a).mpr (lt_irrefl _)

theorem portLe_refl (a : Port) : portLe a a := lessThan_self a

theorem lessThan_connex (a b : Port) (h1 : lessThan a b = false)
    (h2 : lessThan b a = false) : a = b :=
  toKey_inj (le_antisymm ((portLe_iff a b).mp h2) ((portLe_iff b a).mp h1))

instance : IsTotal Port portLe :=
  ⟨fun a b => by
    rw [portLe_iff, portLe_iff]
    exact le_total _ _⟩

instance : IsTrans Port portLe :=
  ⟨fun a b c hab hbc =>
    (portLe_iff a c).mpr (le_trans ((portLe_iff a b).mp hab) ((portLe_iff b c).mp hbc))⟩

instance : IsAntisymm Port portLe :=
  ⟨fun a b hab hba => lessThan_connex a b hba hab⟩

/-- If `a` and `b` are incomparably `portLe`-related but distinct keys,
the strict comparator holds. -/
theorem lessThan_of_portLe_of_ne {a b : Port} (h : portLe a b) (hne : a ≠ b) :
    lessThan a b = true := by
  cases hlt : lessThan a b
  · exact absurd (lessThan_connex a b hlt h) hne
  · rfl

/-- Justification for embedding `sort.Slice` as `insertionSort`: any sorted
permutation of the input — which is all that an unstable comparison sort
guarantees — is *equal* to the insertion sort of the input, because
`portLe` is antisymmetric. -/
theorem insertionSort_canonical (ps l : List Port) (hp : l.Perm ps)
    (hs : l.Pairwise portLe) : l = List.insertionSort portLe ps :=
  List.eq_of_perm_of_sorted (hp.trans (List.perm_insertionSort portLe ps).symm)
    hs (List.sorted_insertionSort portLe ps)

theorem keyOf_protoPort (p : Port) : keyOf (protoPort p) = keyOf p := rfl

theorem keyOf_eq_iff (p q : Port) :
    keyOf p = keyOf q ↔ p.port = q.port ∧ p.proto = q.proto := by
  simp only [keyOf, toLex_inj, Prod.mk.injEq]

theorem protoPort_eq_iff_keyOf (p q : Port) :
    protoPort p = protoPort q ↔ keyOf p = keyOf q := by
  rw [keyOf_eq_iff]
  unfold protoPort
  rw [Port.mk.injEq]
  constructor
  · rintro ⟨h1, h2, -, -⟩
    exact ⟨h2, h1⟩
  · rintro ⟨h1, h2⟩
    exact ⟨h2, h1, rfl, rfl⟩

theorem empty_string_le (s : String) : ("" : String) ≤ s := by
  refine le_of_not_lt fun h => ?_
  rw [String.lt_iff_toList_lt] at h
  exact List.Lex.not_nil_right _ _ h

theorem portLe_keyOf {a b : Port} (h : portLe a b) : keyOf a ≤ keyOf b := by
  rw [portLe_iff] at h
  unfold toKey at h
  unfold keyOf
  rw [Prod.Lex.le_iff] at h ⊢
  rcases h with h | ⟨he, h⟩
  · exact Or.inl h
  · refine Or.inr ⟨he, ?_⟩
    rw [Prod.Lex.le_iff] at h
    rcases h with h | ⟨he2, -⟩
    · exact le_of_lt h
    · exact le_of_eq he2

theorem keyOf_zeroPort_le (p : Port) : keyOf zeroPort ≤ keyOf p := by
  unfold keyOf
  rw [Prod.Lex.le_iff]
  rcases Nat.eq_zero_or_pos p.port with h | h
  · exact Or.inr ⟨h.symm, empty_string_le _⟩
  · exact Or.inl h

theorem dedupGo_subset : ∀ (l : List Port) (last : Port),
    ∀ p ∈ dedupGo last l, p ∈ l := by
  intro l
  induction l with
  | nil => intro last p hp; exact absurd hp (List.not_mem_nil p)
  | cons q rest ih =>
    intro last p hp
    unfold dedupGo at hp
    split at hp
    · exact List.mem_cons_of_mem q (ih last p hp)
    · rcases List.mem_cons.mp hp with h | h
      · exact h ▸ List.mem_cons_self q rest
      · exact List.mem_cons_of_mem q (ih (protoPort q) p h)

/-- No element surviving the dedup loop carries the key tracked in `last`
at entry (the key order only grows along a sorted list). -/
theorem dedupGo_keyOf_ne : ∀ (l : List Port) (last : Port),
    l.Pairwise portLe → protoPort last = last →
    (∀ p ∈ l, keyOf last ≤ keyOf p) →
    ∀ m ∈ dedupGo last l, keyOf m ≠ keyOf last := by
  intro l
  induction l with
  | nil => intro last _ _ _ m hm; exact absurd hm (List.not_mem_nil m)
  | cons p rest ih =>
    intro last hpw hc hinv m hm
    rw [List.pairwise_cons] at hpw
    unfold dedupGo at hm
    split at hm
    · rename_i heq
      exact ih last hpw.2 hc (fun q hq => hinv q (List.mem_cons_of_mem p hq)) m hm
    · rename_i hne
      have hkp : keyOf p ≠ keyOf last := by
        intro hk
        exact hne (hc ▸ ((protoPort_eq_iff_keyOf last p).mpr hk.symm))
      rcases List.mem_cons.mp hm with h | h
      · exact h ▸ hkp
      · have hmkey : keyOf m ≠ keyOf (protoPort p) :=
          ih (protoPort p) hpw.2 rfl
            (fun q hq => by rw [keyOf_protoPort]; exact portLe_keyOf (hpw.1 q hq)) m h
        have hmem : m ∈ rest := dedupGo_subset rest (protoPort p) m h
        have h1 : keyOf last < keyOf p :=
          lt_of_le_of_ne (hinv p (List.mem_cons_self p rest)) (Ne.symm hkp)
        have h2 : keyOf p ≤ keyOf m := portLe_keyOf (hpw.1 m hmem)
        exact ne_of_gt (lt_of_lt_of_le h1 h2)

/-- Counting lemma for the dedup loop over a sorted list: each key other
than the one tracked in `last` keeps exactly one representative (none if it
does not occur), and the `last` key is suppressed entirely. -/
theorem dedupGo_countP : ∀ (l : List Port) (last : Port) (κ : Nat ×ₗ String),
    l.Pairwise portLe → protoPort last = last →
    (∀ p ∈ l, keyOf last ≤ keyOf p) →
    (dedupGo last l).countP (fun p => decide (keyOf p = κ)) =
      if κ = keyOf last then 0
      else min 1 (l.countP (fun p => decide (keyOf p = κ))) := by
  intro l
  induction l with
  | nil => intro last κ _ _ _; simp [dedupGo]
  | cons p rest ih =>
    intro last κ hpw hc hinv
    rw [List.pairwise_cons] at hpw
    have hinv' : ∀ q ∈ rest, keyOf last ≤ keyOf q :=
      fun q hq => hinv q (List.mem_cons_of_mem p hq)
    unfold dedupGo
    split
    · rename_i heq
      have hkey : keyOf p = keyOf last := by rw [heq, keyOf_protoPort]
      rw [ih last κ hpw.2 hc hinv']
      by_cases hκ : κ = keyOf last
      · simp [hκ]
      · rw [if_neg hκ, if_neg hκ, List.countP_cons]
        have hp : ¬ keyOf p = κ := fun h => hκ (by rw [← h, hkey])
        simp [hp]
    · rename_i hne
      have hkp : keyOf p ≠ keyOf last := fun hk =>
        hne (by rw [← hc]; exact ((protoPort_eq_iff_keyOf last p).mpr hk.symm))
      have hcp : protoPort (protoPort p) = protoPort p := rfl
      have hinvp : ∀ q ∈ rest, keyOf (protoPort p) ≤ keyOf q := fun q hq => by
        rw [keyOf_protoPort]
        exact portLe_keyOf (hpw.1 q hq)
      have ihp := ih (protoPort p) κ hpw.2 hcp hinvp
      rw [keyOf_protoPort] at ihp
      by_cases hκp : κ = keyOf p
      · subst hκp
        rw [if_neg hkp, List.countP_cons, List.countP_cons, ihp, if_pos rfl]
        simp only [decide_eq_true_eq]
        have hp : (decide (keyOf p = keyOf p)) = true := by simp
        simp only [hp, if_true]
        omega
      · have hp : decide (keyOf p = κ) = false := by
          simp only [decide_eq_false_iff_not]
          exact fun h => hκp (by rw [h])
        rw [List.countP_cons, List.countP_cons, ihp, if_neg hκp, hp]
        simp only [Bool.false_eq_true, if_false, Nat.add_zero]
        by_cases hκl : κ = keyOf last
        · rw [if_pos hκl]
          have hz : rest.countP (fun q => decide (keyOf q = κ)) = 0 := by
            rw [List.countP_eq_zero]
            intro q hq
            simp only [decide_eq_true_eq]
            intro hkq
            have h1 : keyOf last < keyOf p :=
              lt_of_le_of_ne (hinv p (List.mem_cons_self p rest)) (Ne.symm hkp)
            have h2 : keyOf p ≤ keyOf q := portLe_keyOf (hpw.1 q hq)
            rw [hκl] at hkq
            exact ne_of_gt (lt_of_lt_of_le h1 h2) hkq
          rw [hz]
          omega
        · rw [if_neg hκl]

/-- Every survivor of the dedup loop over a sorted list is `portLe`-minimal
among the list elements sharing its key. -/
theorem dedupGo_min : ∀ (l : List Port) (last : Port),
    l.Pairwise portLe → protoPort last = last →
    (∀ p ∈ l, keyOf last ≤ keyOf p) →
    ∀ m ∈ dedupGo last l, ∀ q ∈ l, keyOf q = keyOf m → portLe m q := by
  intro l
  induction l with
  | nil => intro last _ _ _ m hm; exact absurd hm (List.not_mem_nil m)
  | cons p rest ih =>
    intro last hpw hc hinv m hm q hq hkq
    rw [List.pairwise_cons] at hpw
    have hinv' : ∀ r ∈ rest, keyOf last ≤ keyOf r :=
      fun r hr => hinv r (List.mem_cons_of_mem p hr)
    unfold dedupGo at hm
    split at hm
    · rename_i heq
      have hkey : keyOf p = keyOf last := by rw [heq, keyOf_protoPort]
      have hmne : keyOf m ≠ keyOf last :=
        dedupGo_keyOf_ne rest last hpw.2 hc hinv' m hm
      rcases List.mem_cons.mp hq with h | h
      · exfalso
        apply hmne
        rw [← hkq, h, hkey]
      · exact ih last hpw.2 hc hinv' m hm q h hkq
    · rename_i hne
      have hcp : protoPort (protoPort p) = protoPort p := rfl
      have hinvp : ∀ r ∈ rest, keyOf (protoPort p) ≤ keyOf r := fun r hr => by
        rw [keyOf_protoPort]
        exact portLe_keyOf (hpw.1 r hr)
      rcases List.mem_cons.mp hm with hmp | hmt
      · subst hmp
        rcases List.mem_cons.mp hq with h | h
        · exact h ▸ portLe_refl m
        · exact hpw.1 q h
      · have hmne : keyOf m ≠ keyOf p := by
          have := dedupGo_keyOf_ne rest (protoPort p) hpw.2 hcp hinvp m hmt
          rwa [keyOf_protoPort] at this
        rcases List.mem_cons.mp hq with h | h
        · exfalso
          apply hmne
          rw [← hkq, h]
        · exact ih (protoPort p) hpw.2 hcp hinvp m hmt q h hkq

/-- The dedup loop of a sorted list yields a strictly `lessThan`-increasing
list with pairwise-distinct keys. -/
theorem dedupGo_pairwise : ∀ (l : List Port) (last : Port),
    l.Pairwise portLe → protoPort last = last →
    (∀ p ∈ l, keyOf last ≤ keyOf p) →
    (dedupGo last l).Pairwise
      (fun a b => lessThan a b = true ∧ keyOf a ≠ keyOf b) := by
  intro l
  induction l with
  | nil => intro last _ _ _; simp [dedupGo]
  | cons p rest ih =>
    intro last hpw hc hinv
    rw [List.pairwise_cons] at hpw
    have hinv' : ∀ q ∈ rest, keyOf last ≤ keyOf q :=
      fun q hq => hinv q (List.mem_cons_of_mem p hq)
    unfold dedupGo
    split
    · exact ih last hpw.2 hc hinv'
    · rename_i hne
      have hcp : protoPort (protoPort p) = protoPort p := rfl
      have hinvp : ∀ q ∈ rest, keyOf (protoPort p) ≤ keyOf q := fun q hq => by
        rw [keyOf_protoPort]
        exact portLe_keyOf (hpw.1 q hq)
      rw [List.pairwise_cons]
      refine ⟨fun m hm => ?_, ih (protoPort p) hpw.2 hcp hinvp⟩
      have hmem : m ∈ rest := dedupGo_subset rest (protoPort p) m hm
      have hkne : keyOf m ≠ keyOf p := by
        have := dedupGo_keyOf_ne rest (protoPort p) hpw.2 hcp hinvp m hm
        rwa [keyOf_protoPort] at this
      have hne' : p ≠ m := fun h => hkne (h ▸ rfl)
      exact ⟨lessThan_of_portLe_of_ne (hpw.1 m hmem) hne', fun h => hkne h.symm⟩

/-- The sorted-and-pairwise facts about `sortAndDedup`, instantiated from
the dedup-loop lemmas at the zero initial key. -/
theorem sortAndDedup_pairwise (ps : List Port) :
    (sortAndDedup ps).Pairwise
      (fun a b => lessThan a b = true ∧ keyOf a ≠ keyOf b) :=
  dedupGo_pairwise (List.insertionSort portLe ps) zeroPort
    (List.sorted_insertionSort portLe ps) rfl (fun p _ => keyOf_zeroPort_le p)

/-- C1: For every batch and every pair of Observations `a`, `b`, the
comparator orders `a` before `b` exactly by the tie-break chain,
most-significant first: port ascending numerically, then protocol
ascending lexicographically ("tcp" before "udp"), then socket identity
(`inode`) ascending lexicographically with the empty string first, then
process ascending lexicographically with the empty string first; and the
normalized output is sorted under this comparator. -/
theorem lessThan_tiebreak_chain_and_output_sorted :
    (∀ a b : Port, lessThan a b = true ↔
      (a.port < b.port ∨ (a.port = b.port ∧
        (a.proto < b.proto ∨ (a.proto = b.proto ∧
          (a.inode < b.inode ∨ (a.inode = b.inode ∧ a.process < b.process))))))) ∧
    (∀ ps : List Port, (sortAndDedup ps).Pairwise (fun a b => lessThan a b = true)) ∧
    (("tcp" : String) < "udp") ∧
    (∀ s : String, ("" : String) ≤ s) := by
  refine ⟨lessThan_eq_true_iff, fun ps => ?_, ?_, empty_string_le⟩
  · exact (sortAndDedup_pairwise ps).imp (fun h => h.1)
  · rw [← sLt_eq_true_iff]
    decide

/-- C10: `lessThan` is a strict total order on Observations: irreflexive,
transitive, and any two mutually-incomparable Observations agree on all
four fields. -/
theorem lessThan_strict_total_order :
    (∀ a : Port, lessThan a a = false) ∧
    (∀ a b c : Port, lessThan a b = true → lessThan b c = true →
      lessThan a c = true) ∧
    (∀ a b : Port, lessThan a b = false → lessThan b a = false →
      a.proto = b.proto ∧ a.port = b.port ∧
        a.inode = b.inode ∧ a.process = b.process) := by
  refine ⟨lessThan_self, fun a b c hab hbc => ?_, fun a b h1 h2 => ?_⟩
  · rw [lessThan_iff_toKey] at hab hbc ⊢
    exact lt_trans hab hbc
  · have he := lessThan_connex a b h1 h2
    subst he
    exact ⟨rfl, rfl, rfl, rfl⟩

theorem lessThan_strict_total_order_witness :
    lessThan ⟨"tcp", 22, "sshd", "sockA"⟩ ⟨"udp", 53, "dns", "sockB"⟩ = true ∧
    ((Port.mk "tcp" 22 "sshd" "sockA").proto = (Port.mk "tcp" 22 "sshd" "sockA").proto ∧
      (Port.mk "tcp" 22 "sshd" "sockA").port = (Port.mk "tcp" 22 "sshd" "sockA").port ∧
      (Port.mk "tcp" 22 "sshd" "sockA").inode = (Port.mk "tcp" 22 "sshd" "sockA").inode ∧
      (Port.mk "tcp" 22 "sshd" "sockA").process = (Port.mk "tcp" 22 "sshd" "sockA").process) :=
  ⟨lessThan_strict_total_order.2.1 ⟨"tcp", 22, "sshd", "sockA"⟩ ⟨"tcp", 41, "x", "y"⟩
      ⟨"udp", 53, "dns", "sockB"⟩ (by decide) (by decide),
    lessThan_strict_total_order.2.2 ⟨"tcp", 22, "sshd", "sockA"⟩
      ⟨"tcp", 22, "sshd", "sockA"⟩ (by decide) (by decide)⟩

/-- C3: `normalize` (= `sortAndDedup`) is permutation-invariant and
deterministic: permuted batches give element-for-element identical
Snapshots, and repeated runs on the same batch agree. -/
theorem sortAndDedup_perm_invariant :
    (∀ ps qs : List Port, ps.Perm qs → sortAndDedup ps = sortAndDedup qs) ∧
    (∀ ps : List Port, sortAndDedup ps = sortAndDedup ps) := by
  refine ⟨fun ps qs h => ?_, fun ps => rfl⟩
  unfold sortAndDedup
  have hsort : List.insertionSort portLe ps = List.insertionSort portLe qs :=
    insertionSort_canonical qs (List.insertionSort portLe ps)
      ((List.perm_insertionSort portLe ps).trans h)
      (List.sorted_insertionSort portLe ps)
  rw [hsort]

theorem sortAndDedup_perm_invariant_witness :
    sortAndDedup [⟨"udp", 53, "dns", "sock3"⟩, ⟨"tcp", 80, "", ""⟩] =
      sortAndDedup [⟨"tcp", 80, "", ""⟩, ⟨"udp", 53, "dns", "sock3"⟩] :=
  sortAndDedup_perm_invariant.1 _ _ (by decide)

/-- C6: on a well-formed batch (every protocol "tcp" or "udp"), the output
of `sortAndDedup` is strictly increasing under the comparator, and no two
output elements share the `(protocol, port)` dedup key. -/
theorem sortAndDedup_strictly_sorted_nodup_keys :
    ∀ ps : List Port, (∀ p ∈ ps, p.proto = "tcp" ∨ p.proto = "udp") →
      (sortAndDedup ps).Pairwise (fun a b => lessThan a b = true) ∧
      (sortAndDedup ps).Pairwise
        (fun a b => ¬ (a.proto = b.proto ∧ a.port = b.port)) := by
  intro ps hwf
  have h := sortAndDedup_pairwise ps
  exact ⟨h.imp (fun hab => hab.1),
    h.imp (fun hab hk => hab.2 ((keyOf_eq_iff _ _).mpr ⟨hk.2, hk.1⟩))⟩

theorem sortAndDedup_strictly_sorted_nodup_keys_witness :
    (sortAndDedup [⟨"tcp", 80, "", ""⟩, ⟨"tcp", 80, "nginx", "sock2"⟩,
        ⟨"udp", 53, "dns", "sock3"⟩]).Pairwise
      (fun a b => lessThan a b = true) ∧
    (sortAndDedup [⟨"tcp", 80, "", ""⟩, ⟨"tcp", 80, "nginx", "sock2"⟩,
        ⟨"udp", 53, "dns", "sock3"⟩]).Pairwise
      (fun a b => ¬ (a.proto = b.proto ∧ a.port = b.port)) :=
  sortAndDedup_strictly_sorted_nodup_keys
    [⟨"tcp", 80, "", ""⟩, ⟨"tcp", 80, "nginx", "sock2"⟩,
      ⟨"udp", 53, "dns", "sock3"⟩] (by decide)

/-- C9: the dedup pass initializes its last-seen key to the zero `Port`
value, so an Observation with empty protocol and port 0 never appears in
the output of `sortAndDedup` — not even when it is the only Observation
with that key. -/
theorem sortAndDedup_zero_key_suppressed :
    (∀ ps : List Port, ∀ p ∈ sortAndDedup ps, ¬ (p.proto = "" ∧ p.port = 0)) ∧
    sortAndDedup [⟨"", 0, "someProcess", "someInode"⟩] = [] := by
  constructor
  · intro ps p hp hz
    have h := dedupGo_keyOf_ne (List.insertionSort portLe ps) zeroPort
      (List.sorted_insertionSort portLe ps) rfl (fun q _ => keyOf_zeroPort_le q) p hp
    apply h
    rw [keyOf_eq_iff]
    exact ⟨hz.2, hz.1⟩
  · decide

/-- Changing the counted predicate from key equality to the explicit
`(protocol, port)` conjunction. -/
theorem countP_key_bridge (p0 : Port) : ∀ l : List Port,
    l.countP (fun p => decide (keyOf p = keyOf p0)) =
      l.countP (fun p => decide (p.proto = p0.proto ∧ p.port = p0.port)) := by
  intro l
  induction l with
  | nil => rfl
  | cons a t iht =>
    rw [List.countP_cons, List.countP_cons, iht]
    have hiff : (keyOf a = keyOf p0) ↔ (a.proto = p0.proto ∧ a.port = p0.port) :=
      (keyOf_eq_iff a p0).trans and_comm
    rw [decide_eq_decide.mpr hiff]

/-- C2: on a well-formed batch, every `(protocol, port)` key occurring in
the batch keeps exactly one Observation in the output of `sortAndDedup`,
and that Observation is one of the batch elements with that key whose
`(socketIdentity (inode), process)` pair is lexicographically smallest. -/
theorem sortAndDedup_key_dedup_canonical :
    ∀ ps : List Port, (∀ p ∈ ps, p.proto = "tcp" ∨ p.proto = "udp") →
      ∀ p0 ∈ ps,
        (sortAndDedup ps).countP
          (fun p => decide (p.proto = p0.proto ∧ p.port = p0.port)) = 1 ∧
        (∀ o ∈ sortAndDedup ps, o.proto = p0.proto ∧ o.port = p0.port →
          o ∈ ps ∧
            ∀ q ∈ ps, q.proto = p0.proto ∧ q.port = p0.port →
              (o.inode < q.inode ∨ (o.inode = q.inode ∧
                (o.process < q.process ∨ o.process = q.process)))) := by
  intro ps hwf p0 hp0
  have hsorted : (List.insertionSort portLe ps).Pairwise portLe :=
    List.sorted_insertionSort portLe ps
  have hinv : ∀ p ∈ List.insertionSort portLe ps, keyOf zeroPort ≤ keyOf p :=
    fun p _ => keyOf_zeroPort_le p
  constructor
  · have hκ : keyOf p0 ≠ keyOf zeroPort := by
      intro hk
      obtain ⟨-, hpr⟩ := (keyOf_eq_iff p0 zeroPort).mp hk
      rcases hwf p0 hp0 with h | h <;> rw [h] at hpr <;> exact absurd hpr (by decide)
    have hcount := dedupGo_countP (List.insertionSort portLe ps) zeroPort
      (keyOf p0) hsorted rfl hinv
    rw [if_neg hκ] at hcount
    show (dedupGo zeroPort (List.insertionSort portLe ps)).countP
      (fun p => decide (p.proto = p0.proto ∧ p.port = p0.port)) = 1
    rw [← countP_key_bridge p0, hcount,
      (List.perm_insertionSort portLe ps).countP_eq
        (fun p => decide (keyOf p = keyOf p0))]
    have hpos : 0 < ps.countP (fun p => decide (keyOf p = keyOf p0)) :=
      List.countP_pos_iff.mpr ⟨p0, hp0, by simp⟩
    omega
  · intro o ho hkey
    have hosub : o ∈ List.insertionSort portLe ps :=
      dedupGo_subset _ zeroPort o ho
    have homem : o ∈ ps := (List.perm_insertionSort portLe ps).mem_iff.mp hosub
    refine ⟨homem, fun q hq hqkey => ?_⟩
    have hqsort : q ∈ List.insertionSort portLe ps :=
      (List.perm_insertionSort portLe ps).mem_iff.mpr hq
    have hkq : keyOf q = keyOf o := by
      rw [keyOf_eq_iff]
      exact ⟨hqkey.2.trans hkey.2.symm, hqkey.1.trans hkey.1.symm⟩
    have hle := dedupGo_min _ zeroPort hsorted rfl hinv o ho q hqsort hkq
    have hle' : lessThan q o = false := hle
    have hchain : ¬ (q.port < o.port ∨ (q.port = o.port ∧
        (q.proto < o.proto ∨ (q.proto = o.proto ∧
          (q.inode < o.inode ∨ (q.inode = o.inode ∧ q.process < o.process)))))) := by
      rw [← lessThan_eq_true_iff]
      simp [hle']
    push_neg at hchain
    have hport : q.port = o.port := hqkey.2.trans hkey.2.symm
    have hproto : q.proto = o.proto := hqkey.1.trans hkey.1.symm
    obtain ⟨-, h2⟩ := hchain
    obtain ⟨-, h4⟩ := h2 hport
    obtain ⟨h6, h7⟩ := h4 hproto
    rcases lt_or_eq_of_le (le_of_not_lt h6) with h | h
    · exact Or.inl h
    · refine Or.inr ⟨h, ?_⟩
      rcases lt_or_eq_of_le (le_of_not_lt (h7 h.symm)) with h9 | h9
      · exact Or.inl h9
      · exact Or.inr h9

theorem sortAndDedup_key_dedup_canonical_witness :
    (sortAndDedup ([⟨"tcp", 80, "", ""⟩, ⟨"tcp", 80, "nginx", "sock2"⟩] : List Port)).countP
        (fun p => decide (p.proto = "tcp" ∧ p.port = 80)) = 1 ∧
    (∀ o ∈ sortAndDedup ([⟨"tcp", 80, "", ""⟩, ⟨"tcp", 80, "nginx", "sock2"⟩] : List Port),
      o.proto = "tcp" ∧ o.port = 80 →
        o ∈ ([⟨"tcp", 80, "", ""⟩, ⟨"tcp", 80, "nginx", "sock2"⟩] : List Port) ∧
          ∀ q ∈ ([⟨"tcp", 80, "", ""⟩, ⟨"tcp", 80, "nginx", "sock2"⟩] : List Port),
            q.proto = "tcp" ∧ q.port = 80 →
              (o.inode < q.inode ∨ (o.inode = q.inode ∧
                (o.process < q.process ∨ o.process = q.process)))) :=
  sortAndDedup_key_dedup_canonical
    [⟨"tcp", 80, "", ""⟩, ⟨"tcp", 80, "nginx", "sock2"⟩] (by decide)
    ⟨"tcp", 80, "", ""⟩ (by decide)

theorem sortAndDedup_zero_key_suppressed_witness :
    ¬ ((Port.mk "tcp" 22 "sshd" "sockA").proto = "" ∧
        (Port.mk "tcp" 22 "sshd" "sockA").port = 0) :=
  sortAndDedup_zero_key_suppressed.1 [⟨"tcp", 22, "sshd", "sockA"⟩]
    ⟨"tcp", 22, "sshd", "sockA"⟩ (by decide)

theorem sameInodes_cons_cons (x y : Port) (xs ys : List Port) :
    sameInodes (x :: xs) (y :: ys) =
      ((x.proto == y.proto && x.port == y.port && x.inode == y.inode) &&
        sameInodes xs ys) := by
  by_cases h : xs.length = ys.length
  · simp [sameInodes, h]
  · simp [sameInodes, h]

theorem stripProcess_eq_iff (x y : Port) :
    stripProcess x = stripProcess y ↔
      x.proto = y.proto ∧ x.port = y.port ∧ x.inode = y.inode := by
  unfold stripProcess
  rw [Port.mk.injEq]
  constructor
  · rintro ⟨h1, h2, -, h3⟩
    exact ⟨h1, h2, h3⟩
  · rintro ⟨h1, h2, h3⟩
    exact ⟨h1, h2, rfl, h3⟩

theorem sameInodes_iff_forall₂ : ∀ a b : List Port,
    sameInodes a b = true ↔
      List.Forall₂
        (fun x y : Port => x.proto = y.proto ∧ x.port = y.port ∧ x.inode = y.inode)
        a b := by
  intro a
  induction a with
  | nil =>
    intro b
    cases b with
    | nil =>
      constructor
      · intro _; exact List.Forall₂.nil
      · intro _; rfl
    | cons y ys => simp [sameInodes, List.forall₂_nil_left_iff]
  | cons x xs ih =>
    intro b
    cases b with
    | nil => simp [sameInodes, List.forall₂_nil_right_iff]
    | cons y ys =>
      rw [sameInodes_cons_cons, List.forall₂_cons]
      simp [Bool.and_eq_true, beq_iff_eq, ih ys, and_assoc]

theorem sameInodes_iff_map_strip : ∀ a b : List Port,
    sameInodes a b = true ↔ a.map stripProcess = b.map stripProcess := by
  intro a
  induction a with
  | nil =>
    intro b
    cases b with
    | nil => simp [sameInodes]
    | cons y ys => simp [sameInodes]
  | cons x xs ih =>
    intro b
    cases b with
    | nil => simp [sameInodes]
    | cons y ys =>
      rw [sameInodes_cons_cons]
      simp [Bool.and_eq_true, beq_iff_eq, ih ys, stripProcess_eq_iff, and_assoc]

/-- C4: `sameInodes` returns true exactly when both Snapshots have equal
length and agree index-wise on protocol, port and socket identity; the
`process` field never affects the result. -/
theorem sameInodes_iff_pointwise :
    (∀ a b : List Port,
      sameInodes a b = true ↔
        (a.length = b.length ∧
          ∀ (i : Nat) (h1 : i < a.length) (h2 : i < b.length),
            (a.get ⟨i, h1⟩).proto = (b.get ⟨i, h2⟩).proto ∧
            (a.get ⟨i, h1⟩).port = (b.get ⟨i, h2⟩).port ∧
            (a.get ⟨i, h1⟩).inode = (b.get ⟨i, h2⟩).inode)) ∧
    (∀ a b : List Port,
      sameInodes a b = sameInodes (a.map stripProcess) (b.map stripProcess)) := by
  constructor
  · intro a b
    rw [sameInodes_iff_forall₂, List.forall₂_iff_get]
  · intro a b
    have hmm : stripProcess ∘ stripProcess = stripProcess := funext fun p => rfl
    have h1 : sameInodes a b = true ↔
        sameInodes (a.map stripProcess) (b.map stripProcess) = true := by
      rw [sameInodes_iff_map_strip, sameInodes_iff_map_strip,
        List.map_map, List.map_map, hmm]
    cases ha : sameInodes a b with
    | true => exact (h1.mp ha).symm
    | false =>
      cases hb : sameInodes (a.map stripProcess) (b.map stripProcess) with
      | true => exact absurd (ha ▸ h1.mpr hb) (by simp)
      | false => rfl

theorem sameInodes_iff_pointwise_witness :
    ([⟨"tcp", 22, "sshd", "sockA"⟩] : List Port).length =
        ([⟨"tcp", 22, "sshd2", "sockA"⟩] : List Port).length ∧
      ∀ (i : Nat) (h1 : i < ([⟨"tcp", 22, "sshd", "sockA"⟩] : List Port).length)
        (h2 : i < ([⟨"tcp", 22, "sshd2", "sockA"⟩] : List Port).length),
        (([⟨"tcp", 22, "sshd", "sockA"⟩] : List Port).get ⟨i, h1⟩).proto =
            (([⟨"tcp", 22, "sshd2", "sockA"⟩] : List Port).get ⟨i, h2⟩).proto ∧
          (([⟨"tcp", 22, "sshd", "sockA"⟩] : List Port).get ⟨i, h1⟩).port =
            (([⟨"tcp", 22, "sshd2", "sockA"⟩] : List Port).get ⟨i, h2⟩).port ∧
          (([⟨"tcp", 22, "sshd", "sockA"⟩] : List Port).get ⟨i, h1⟩).inode =
            (([⟨"tcp", 22, "sshd2", "sockA"⟩] : List Port).get ⟨i, h2⟩).inode :=
  (sameInodes_iff_pointwise.1 [⟨"tcp", 22, "sshd", "sockA"⟩]
    [⟨"tcp", 22, "sshd2", "sockA"⟩]).mp (by decide)

/-- C5: `sameInodes` is reflexive; modifying only `process` fields keeps it
true; and a difference in any protocol, port or socket identity, or in
length — i.e. any difference visible after forgetting `process` — makes it
false. -/
theorem sameInodes_process_insensitive :
    (∀ S : List Port, sameInodes S S = true) ∧
    (∀ S S' : List Port, S.map stripProcess = S'.map stripProcess →
      sameInodes S S' = true) ∧
    (∀ S S' : List Port, S.map stripProcess ≠ S'.map stripProcess →
      sameInodes S S' = false) := by
  refine ⟨fun S => (sameInodes_iff_map_strip S S).mpr rfl,
    fun S S' h => (sameInodes_iff_map_strip S S').mpr h,
    fun S S' h => ?_⟩
  cases hb : sameInodes S S' with
  | true => exact absurd ((sameInodes_iff_map_strip S S').mp hb) h
  | false => rfl

theorem sameInodes_process_insensitive_witness :
    sameInodes [⟨"tcp", 22, "sshd", "sockA"⟩] [⟨"tcp", 22, "sshd2", "sockA"⟩] = true ∧
    sameInodes [⟨"tcp", 22, "sshd", "sockA"⟩] [⟨"tcp", 22, "sshd", "sockB"⟩] = false :=
  ⟨sameInodes_process_insensitive.2.1 _ _ (by decide),
    sameInodes_process_insensitive.2.2 _ _ (by decide)⟩

theorem foldl_append_eq : ∀ (pl : List Port) (init : String),
    pl.foldl (fun sb v => sb ++ (formatLine v ++ "\n")) init =
      init ++ strConcat (pl.map (fun v => formatLine v ++ "\n")) := by
  intro pl
  induction pl with
  | nil => intro init; simp [strConcat]
  | cons v rest ih =>
    intro init
    rw [List.foldl_cons, ih, List.map_cons]
    rw [show strConcat ((formatLine v ++ "\n") ::
        rest.map (fun v => formatLine v ++ "\n")) =
      (formatLine v ++ "\n") ++
        strConcat (rest.map (fun v => formatLine v ++ "\n")) from rfl]
    rw [String.append_assoc]

theorem dropTrailingNL_append_newline (l : List Char) :
    dropTrailingNL (l ++ ['\n']) = dropTrailingNL l := by
  unfold dropTrailingNL
  rw [List.reverse_append]
  simp [List.dropWhile_cons]

theorem dropTrailingNL_snoc (l : List Char) (c : Char) (hc : ¬ c = '\n') :
    dropTrailingNL (l ++ [c]) = l ++ [c] := by
  unfold dropTrailingNL
  rw [List.reverse_append]
  simp [List.dropWhile_cons, hc]

theorem dropTrailingNL_append_left (xs ys : List Char)
    (h : ¬ dropTrailingNL ys = []) :
    dropTrailingNL (xs ++ ys) = xs ++ dropTrailingNL ys := by
  unfold dropTrailingNL at h ⊢
  rw [List.reverse_append, List.dropWhile_append]
  have h2 : List.dropWhile (fun c => c = '\n') ys.reverse ≠ [] := by
    intro he
    apply h
    rw [he]
    rfl
  have h3 : (List.dropWhile (fun c => c = '\n') ys.reverse).isEmpty = false :=
    List.isEmpty_eq_false.mpr h2
  rw [h3]
  simp [List.reverse_append]

theorem joinLines_cons_data_ne (l : String) (rest : List String)
    (h : l.data ≠ []) : (joinLines (l :: rest)).data ≠ [] := by
  cases rest with
  | nil => exact h
  | cons l2 r2 =>
    show ((l ++ "\n" ++ joinLines (l2 :: r2))).data ≠ []
    rw [String.data_append, String.data_append]
    simp [h]

theorem trim_strConcat : ∀ ls : List String,
    (∀ l ∈ ls, ∃ l' c, l.data = l' ++ [c] ∧ ¬ c = '\n') →
    trimRightNewlines (strConcat (ls.map (fun l => l ++ "\n"))) = joinLines ls := by
  intro ls
  induction ls with
  | nil => intro _; decide
  | cons l rest ih =>
    intro hne
    obtain ⟨l', c, hl, hc⟩ := hne l (List.mem_cons_self l rest)
    cases rest with
    | nil =>
      show trimRightNewlines ((l ++ "\n") ++ "") = joinLines [l]
      rw [String.append_empty]
      apply String.ext
      show dropTrailingNL ((l ++ "\n").data) = (joinLines [l]).data
      rw [String.data_append]
      rw [show ("\n" : String).data = ['\n'] from rfl]
      rw [dropTrailingNL_append_newline, hl, dropTrailingNL_snoc _ _ hc, ← hl]
      rfl
    | cons l2 r2 =>
      have ihr := ih (fun q hq => hne q (List.mem_cons_of_mem l hq))
      have hydata : dropTrailingNL (strConcat ((l2 :: r2).map (fun l => l ++ "\n"))).data =
          (joinLines (l2 :: r2)).data := congrArg String.data ihr
      have hne2 : dropTrailingNL (strConcat ((l2 :: r2).map (fun l => l ++ "\n"))).data ≠ [] := by
        rw [hydata]
        apply joinLines_cons_data_ne
        obtain ⟨l2', c2, hl2, -⟩ := hne l2 (List.mem_cons_of_mem l (List.mem_cons_self l2 r2))
        rw [hl2]
        simp
      show trimRightNewlines ((l ++ "\n") ++ strConcat ((l2 :: r2).map (fun l => l ++ "\n"))) =
        l ++ "\n" ++ joinLines (l2 :: r2)
      apply String.ext
      show dropTrailingNL (((l ++ "\n") ++ strConcat ((l2 :: r2).map (fun l => l ++ "\n"))).data) =
        ((l ++ "\n") ++ joinLines (l2 :: r2)).data
      rw [String.data_append, String.data_append,
        dropTrailingNL_append_left _ _ hne2, hydata,
        String.data_append, String.data_append]

theorem data_snoc_of_append (s t : String)
    (h : ∃ l' c, t.data = l' ++ [c] ∧ ¬ c = '\n') :
    ∃ l' c, (s ++ t).data = l' ++ [c] ∧ ¬ c = '\n' := by
  obtain ⟨l', c, hd, hc⟩ := h
  exact ⟨s.data ++ l', c,
    by rw [String.data_append, hd, List.append_assoc], hc⟩

theorem goQuote_data_snoc (s : String) :
    ∃ l' c, (goQuote s).data = l' ++ [c] ∧ ¬ c = '\n' := by
  refine ⟨("\"" ++ strConcat (s.data.map goQuoteChar)).data, '"', ?_, by decide⟩
  show (("\"" ++ strConcat (s.data.map goQuoteChar)) ++ "\"").data = _
  rw [String.data_append]

theorem formatLine_data_snoc (v : Port) :
    ∃ l' c, (formatLine v).data = l' ++ [c] ∧ ¬ c = '\n' :=
  data_snoc_of_append _ _ (goQuote_data_snoc v.process)

/-- C8: `render` produces one line per Observation in Snapshot order —
protocol left-justified to at least 3 runes, a space, the port
right-justified to at least 5 runes, a space, the socket identity
left-justified to at least 17 runes, a space, and the process name as a
quoted/escaped string literal — with lines newline-separated, no trailing
newline, and the empty Snapshot rendering to the empty string. -/
theorem render_line_format :
    (∀ pl : List Port,
      render pl = joinLines (pl.map (fun v =>
        goPadRight 3 v.proto ++ " " ++ goPadLeft 5 (Nat.repr v.port) ++ " " ++
          goPadRight 17 v.inode ++ " " ++ goQuote v.process))) ∧
    render [] = "" ∧
    (∀ (w : Nat) (s : String),
      w ≤ (goPadRight w s).length ∧ w ≤ (goPadLeft w s).length) ∧
    (∀ s : String, ∃ body : String, goQuote s = "\"" ++ body ++ "\"") := by
  refine ⟨fun pl => ?_, by decide, fun w s => ?_, fun s => ?_⟩
  · unfold render
    rw [foldl_append_eq, String.empty_append]
    rw [show (pl.map (fun v => formatLine v ++ "\n")) =
      ((pl.map formatLine).map (fun l => l ++ "\n")) from by
        rw [List.map_map]
        rfl]
    exact trim_strConcat (pl.map formatLine)
      (fun l hl => by
        obtain ⟨v, -, hv⟩ := List.mem_map.mp hl
        exact hv ▸ formatLine_data_snoc v)
  · constructor
    · unfold goPadRight
      rw [String.length_append]
      have : (String.mk (List.replicate (w - s.length) ' ')).length =
          w - s.length := by
        show (List.replicate (w - s.length) ' ').length = _
        rw [List.length_replicate]
      omega
    · unfold goPadLeft
      rw [String.length_append]
      have : (String.mk (List.replicate (w - s.length) ' ')).length =
          w - s.length := by
        show (List.replicate (w - s.length) ' ').length = _
        rw [List.length_replicate]
      omega
  · exact ⟨strConcat (s.data.map goQuoteChar), rfl⟩

/-- C7: `normalize` (`sortAndDedup`), `unchanged` (`sameInodes`) and
`render` are total functions of well-typed input — each yields a value on
every input and `sameInodes` always yields one of the two booleans — and
the empty batch normalizes to the empty Snapshot (and renders to the empty
string). -/
theorem operations_total :
    sortAndDedup ([] : List Port) = [] ∧
    render ([] : List Port) = "" ∧
    (∀ ps : List Port, ∃ out : List Port, sortAndDedup ps = out) ∧
    (∀ a b : List Port, sameInodes a b = true ∨ sameInodes a b = false) ∧
    (∀ pl : List Port, ∃ s : String, render pl = s) := by
  refine ⟨rfl, by decide, fun ps => ⟨_, rfl⟩, fun a b => ?_, fun pl => ⟨_, rfl⟩⟩
  cases sameInodes a b
  · exact Or.inr rfl
  · exact Or.inl rfl

end Portlist
